import Mathlib

/-! # UDP game server (`src/server/server.cpp`): wire codec, registry, queue, broadcast

A shallow embedding of the core of `server.cpp`:

* `ParsePacket` (lines 178-193), the decoder of the textual wire format;
* `encode`, the string that `GameLoop` builds at lines 231-237;
* `FindClientByPlayerId` (159-166) and `RegisterNew` (168-176) on `players`;
* one iteration of `ReceiveMessages` (200-214);
* `msg_queue`, a `std::priority_queue` over `PacketTimestampComparator` (54-58, 89);
* the broadcast loop of `GameLoop` (240-253) and its drain loop (224-254).

Conventions.  A `char`, and every fixed-width unsigned field, is a `Nat`; a conversion to
`uintN_t` is an explicit `% 2^N`.  A `std::string` is the list of its bytes.  Library calls
that can throw return `Except Fault _`; a read that the language leaves undefined is the
fault `undefined_behaviour`.  The global `gameState` is passed explicitly.
-/

namespace UdpGameServer

/-! ## Data model (lines 26-90) -/

/-- What a step of the program can end in instead of a value: the two exceptions thrown by
`std::stoi`, `std::stoul` and `std::string::substr`, and an out-of-bounds read. -/
inductive Fault
  | invalid_argument
  | out_of_range
  | undefined_behaviour
  deriving DecidableEq, Repr

/-- The `struct Packet` of lines 26-52: `uint8_t packetType`, `uint16_t playerId`,
`uint8_t movementState`, `uint8_t direction`, `uint32_t timestamp`, `string name`. -/
structure Packet where
  packetType : Nat
  playerId : Nat
  movementState : Nat
  direction : Nat
  timestamp : Nat
  name : List Nat
  deriving DecidableEq, Repr

/-- The transport address `sockaddr_in`; the server only stores and passes it on. -/
structure sockaddr_in where
  sin_family : Nat
  sin_port : Nat
  sin_addr : Nat
  deriving DecidableEq, Repr

/-- The `struct Client` of lines 73-81. -/
structure Client where
  address : sockaddr_in
  ip : List Nat
  name : List Nat
  playerId : Nat
  movementState : Nat
  direction : Nat
  deriving DecidableEq, Repr

/-- The value-initialised `Client()` returned at line 165: zeroed scalars, empty strings. -/
def Client.zero : Client :=
  { address := { sin_family := 0, sin_port := 0, sin_addr := 0 }
    ip := []
    name := []
    playerId := 0
    movementState := 0
    direction := 0 }

/-- The bytes of a string literal. -/
def bytes (s : String) : List Nat := s.toList.map Char.toNat

/-! ## The C and C++ library calls used by the codec -/

/-- `isdigit` in the "C" locale: `'0'` (48) to `'9'` (57). -/
def isdigit (c : Nat) : Bool := decide (48 ≤ c) && decide (c ≤ 57)

/-- `isspace` in the "C" locale: space, and `\t \n \v \f \r` (9 to 13). -/
def isspace (c : Nat) : Bool := c == 32 || (decide (9 ≤ c) && decide (c ≤ 13))

/-- `ULONG_MAX` of the target: the program is a Winsock program, where `unsigned long`
has 32 bits. -/
def ULONG_MAX : Nat := 4294967295

/-- `INT_MAX`. -/
def INT_MAX : Int := 2147483647

/-- The value of a run of decimal digit characters, most significant first. -/
def digitsValue (ds : List Nat) : Nat :=
  ds.foldl (fun acc d => 10 * acc + (d - 48)) 0

/-- The scanning front end shared by `strtol` and `strtoul` in base 10: leading white space
is skipped, one optional sign is read, then the longest run of digits.  `none` when there is
no digit to convert; otherwise the sign and the magnitude. -/
def scanInteger (s : List Nat) : Option (Bool × Nat) :=
  let body := s.dropWhile isspace
  let signed : Bool × List Nat :=
    match body with
    | 45 :: rest => (true, rest)
    | 43 :: rest => (false, rest)
    | _ => (false, body)
  let run := signed.2.takeWhile isdigit
  if run.isEmpty then none else some (signed.1, digitsValue run)

/-- `std::stoi(s)`: `invalid_argument` when no conversion can be done, `out_of_range` when
the value does not fit an `int`. -/
def stoi (s : List Nat) : Except Fault Int :=
  match scanInteger s with
  | none => .error .invalid_argument
  | some (neg, v) =>
    let r : Int := if neg then -(v : Int) else (v : Int)
    if -INT_MAX - 1 ≤ r ∧ r ≤ INT_MAX then .ok r else .error .out_of_range

/-- `std::stoul(s)`: `invalid_argument` when no conversion can be done, `out_of_range` when
the magnitude exceeds `ULONG_MAX`; a minus sign negates in `unsigned long`. -/
def stoul (s : List Nat) : Except Fault Nat :=
  match scanInteger s with
  | none => .error .invalid_argument
  | some (neg, v) =>
    if ULONG_MAX < v then .error .out_of_range
    else .ok (if neg then (ULONG_MAX + 1 - v) % (ULONG_MAX + 1) else v)

/-- Digits of `std::to_string` on an unsigned value, with `fuel` bounding the recursion. -/
def to_string_aux : Nat → Nat → List Nat
  | 0, _ => []
  | fuel + 1, n =>
    if n < 10 then [48 + n] else to_string_aux fuel (n / 10) ++ [48 + n % 10]

/-- `std::to_string(n)` for a non-negative `n`: its decimal digits, no leading zero. -/
def to_string (n : Nat) : List Nat := to_string_aux (n + 1) n

/-- `std::string data(buf)` for a `const char* buf` pointing at the array `mem`: the bytes
before the first NUL.  With no NUL inside the array the constructor reads past it. -/
def string_of_cstr (mem : List Nat) : Except Fault (List Nat) :=
  if mem.contains 0 then .ok (mem.takeWhile (fun c => c != 0)) else .error .undefined_behaviour

/-- `s.c_str()`: the bytes of `s` followed by the terminating NUL. -/
def c_str (s : List Nat) : List Nat := s ++ [0]

/-- `data[i]` (`std::string::operator[]`): the byte at `i`, the NUL `char` at `i = size()`,
undefined beyond. -/
def string_at (data : List Nat) (i : Nat) : Except Fault Nat :=
  if i < data.length then .ok (data.getD i 0)
  else if i = data.length then .ok 0
  else .error .undefined_behaviour

/-- `data.substr(pos, n)`: throws `out_of_range` when `pos > size()`. -/
def substr (data : List Nat) (pos n : Nat) : Except Fault (List Nat) :=
  if data.length < pos then .error .out_of_range else .ok ((data.drop pos).take n)

/-- `data.substr(pos)`: the rest of the string from `pos`. -/
def substr_from (data : List Nat) (pos : Nat) : Except Fault (List Nat) :=
  if data.length < pos then .error .out_of_range else .ok (data.drop pos)

/-- Scan of `find_first_not_of`: the index (counted from `i`) of the first byte of the list
that is not in `chars`. -/
def find_not_of_from (chars : List Nat) : List Nat → Nat → Option Nat
  | [], _ => none
  | c :: rest, i => if chars.contains c then find_not_of_from chars rest (i + 1) else some i

/-- `data.find_first_not_of(chars, pos)`; `none` is `std::string::npos`. -/
def find_first_not_of (data chars : List Nat) (pos : Nat) : Option Nat :=
  find_not_of_from chars (data.drop pos) pos

/-- The literal `"0123456789"` of line 187. -/
def decimalDigits : List Nat := [48, 49, 50, 51, 52, 53, 54, 55, 56, 57]

/-! ## Wire codec -/

/-- `ParsePacket(buf, packet)` (lines 178-193).  `buf` is the array the pointer points at,
`packet` the object passed by reference, whose fields keep their previous value wherever the
function does not assign them; the result is that object after the call. -/
def ParsePacket (buf : List Nat) (packet : Packet) : Except Fault Packet := do
  let data ← string_of_cstr buf
  let c0 ← string_at data 0
  let packet := { packet with packetType := (c0 + 256 - 48) % 256 }
  let c2 ← string_at data 2
  let packet := { packet with movementState := (c2 + 256 - 48) % 256 }
  let c3 ← string_at data 3
  let packet := { packet with direction := (c3 + 256 - 48) % 256 }
  let idText ← substr data 1 1
  let id ← stoi idText
  let packet := { packet with playerId := (id % 65536).toNat }
  let timestampStart := 4
  match find_first_not_of data decimalDigits timestampStart with
  | none => pure packet
  | some nameStart =>
    let tsText ← substr data timestampStart (nameStart - timestampStart)
    let ts ← stoul tsText
    let packet := { packet with timestamp := ts % 2 ^ 32 }
    let nm ← substr_from data nameStart
    pure { packet with name := nm }

/-- The string `buf` that `GameLoop` builds for a dequeued packet (lines 231-237). -/
def encode (packet : Packet) : List Nat :=
  to_string packet.packetType ++ to_string packet.playerId ++
    to_string packet.movementState ++ to_string packet.direction ++
    to_string packet.timestamp ++ packet.name

/-! ## Player registry (lines 159-176) -/

/-- The `struct GameState` of lines 84-90; `msg_queue` is the vector held by the
`std::priority_queue`, in heap order. -/
structure GameState where
  players : List Client
  datagram : List Nat
  stopServer : Bool
  receiving : Bool
  msg_queue : List Packet
  deriving DecidableEq, Repr

/-- The range-for of `FindClientByPlayerId` over `players`. -/
def FindClientByPlayerId.scan (playerId : Nat) : List Client → Client
  | [] => Client.zero
  | client :: rest =>
    if client.playerId = playerId then client else FindClientByPlayerId.scan playerId rest

/-- `FindClientByPlayerId(gameState, playerId)` (lines 159-166): the first client with that
id, `Client()` when there is none. -/
def FindClientByPlayerId (gameState : GameState) (playerId : Nat) : Client :=
  FindClientByPlayerId.scan playerId gameState.players

/-- `RegisterNew(packet, addr)` (lines 168-176) on the global `gameState`: a `Client` is
filled from the packet and the address (its `ip` stays the empty string) and appended with
`emplace_back`. -/
def RegisterNew (packet : Packet) (addr : sockaddr_in) (gameState : GameState) : GameState :=
  let client : Client :=
    { address := addr
      ip := []
      name := packet.name
      playerId := packet.playerId
      movementState := packet.movementState
      direction := packet.direction }
  { gameState with players := gameState.players ++ [client] }

/-! ## The delivery queue: `std::priority_queue<Packet, vector<Packet>, Comparator>`

The adaptor keeps its vector `c` a heap with `std::push_heap` and `std::pop_heap`, written
here as the hole-based loops of the standard library (libstdc++ `__push_heap` and
`__adjust_heap`; the MSVC STL `_Push_heap_by_index` and `_Pop_heap_hole_by_index` are the
same loops).  Every read below is inside the vector on the paths the adaptor takes; `getD`
with the moved value as default only keeps the functions total. -/

/-- `PacketTimestampComparator::operator()` (lines 54-58). -/
def PacketTimestampComparator (lhs rhs : Packet) : Bool :=
  decide (lhs.timestamp > rhs.timestamp)

/-- The loop of `__push_heap(first, holeIndex, topIndex, value, comp)`: while the hole is
below `topIndex` and its parent compares less than `value`, the parent moves into the hole;
at the end `value` is stored in the hole.  The hole index strictly decreases, so `fuel`
equal to the starting hole index is never exhausted before the loop ends. -/
def push_heap_loop (comp : Packet → Packet → Bool) (topIndex : Nat) (value : Packet) :
    Nat → List Packet → Nat → List Packet
  | 0, c, holeIndex => c.set holeIndex value
  | fuel + 1, c, holeIndex =>
    let parent := (holeIndex - 1) / 2
    if holeIndex > topIndex ∧ comp (c.getD parent value) value = true then
      push_heap_loop comp topIndex value fuel (c.set holeIndex (c.getD parent value)) parent
    else c.set holeIndex value

/-- `std::push_heap(c.begin(), c.end(), comp)`: the last element is sifted up. -/
def push_heap (comp : Packet → Packet → Bool) (c : List Packet) : List Packet :=
  match c.getLast? with
  | none => c
  | some value =>
    if 2 ≤ c.length then push_heap_loop comp 0 value (c.length - 1) c (c.length - 1) else c

/-- The first loop of `__adjust_heap(first, holeIndex, len, value, comp)`: the hole moves
down to the child that does not compare less than its sibling, as long as the second child
exists.  The result is the vector with `holeIndex` and `secondChild` at loop exit. -/
def adjust_heap_descend (comp : Packet → Packet → Bool) (len : Nat) (value : Packet) :
    Nat → List Packet → Nat → Nat → List Packet × Nat × Nat
  | 0, c, holeIndex, secondChild => (c, holeIndex, secondChild)
  | fuel + 1, c, holeIndex, secondChild =>
    if secondChild < (len - 1) / 2 then
      let secondChild := 2 * (secondChild + 1)
      let secondChild :=
        if comp (c.getD secondChild value) (c.getD (secondChild - 1) value) = true
        then secondChild - 1 else secondChild
      adjust_heap_descend comp len value fuel
        (c.set holeIndex (c.getD secondChild value)) secondChild secondChild
    else (c, holeIndex, secondChild)

/-- `__adjust_heap(first, holeIndex, len, value, comp)`: the hole goes down to a leaf (with
the special case of a last node with one child), then `value` is pushed up from there. -/
def adjust_heap (comp : Packet → Packet → Bool) (c : List Packet) (holeIndex len : Nat)
    (value : Packet) : List Packet :=
  let topIndex := holeIndex
  let down := adjust_heap_descend comp len value len c holeIndex holeIndex
  let c := down.1
  let holeIndex := down.2.1
  let secondChild := down.2.2
  if len % 2 = 0 ∧ secondChild = (len - 2) / 2 then
    let secondChild := 2 * (secondChild + 1)
    let c := c.set holeIndex (c.getD (secondChild - 1) value)
    let holeIndex := secondChild - 1
    push_heap_loop comp topIndex value holeIndex c holeIndex
  else
    push_heap_loop comp topIndex value holeIndex c holeIndex

/-- `std::pop_heap(c.begin(), c.end(), comp)`: with two elements or more, the last one is
taken out as `value`, the first is stored in its place and `value` is re-inserted in the
heap of the first `size() - 1` positions. -/
def pop_heap (comp : Packet → Packet → Bool) (c : List Packet) : List Packet :=
  match c.head?, c.getLast? with
  | some front, some value =>
    if 2 ≤ c.length then
      adjust_heap comp (c.set (c.length - 1) front) 0 (c.length - 1) value
    else c
  | _, _ => c

/-- `msg_queue.push(packet)`: `c.push_back(packet); push_heap(c.begin(), c.end(), comp)`. -/
def msg_queue_push (c : List Packet) (packet : Packet) : List Packet :=
  push_heap PacketTimestampComparator (c ++ [packet])

/-- `msg_queue.top()`: `c.front()`; `none` stands for the undefined call on an empty queue. -/
def msg_queue_top (c : List Packet) : Option Packet := c.head?

/-- `msg_queue.pop()`: `pop_heap(c.begin(), c.end(), comp); c.pop_back()`. -/
def msg_queue_pop (c : List Packet) : List Packet :=
  (pop_heap PacketTimestampComparator c).dropLast

/-! ## Ingestion: one iteration of `ReceiveMessages` (lines 200-214) -/

/-- `SOCKET_ERROR` of Winsock. -/
def SOCKET_ERROR : Int := -1

/-- What `recvfrom` leaves behind: its return value, the 64-byte buffer, the sender. -/
structure Received where
  bytesIn : Int
  buf : List Nat
  client : sockaddr_in
  deriving DecidableEq, Repr

/-- `ZeroMemory(buf, 64)` followed by `recvfrom(serverSocket, buf, sizeof(buf), ...)` for an
arriving datagram: a datagram of at most 64 bytes is copied over the zeroed buffer and its
length returned; a longer one fills the buffer and fails with `SOCKET_ERROR`. -/
def recvfrom (datagram : List Nat) (sender : sockaddr_in) : Received :=
  if datagram.length ≤ 64 then
    { bytesIn := datagram.length
      buf := datagram ++ List.replicate (64 - datagram.length) 0
      client := sender }
  else
    { bytesIn := SOCKET_ERROR
      buf := datagram.take 64
      client := sender }

/-- The body of the `while` of `ReceiveMessages` for one arriving datagram.  `indeterminate`
stands for the uninitialised scalar fields of the local `Packet packet;`, whose `name` is
the empty string.  A fault is an exception that nothing catches, or an undefined read. -/
def ReceiveMessages_iteration (gameState : GameState) (datagram : List Nat)
    (sender : sockaddr_in) (indeterminate : Packet) : Except Fault GameState :=
  let received := recvfrom datagram sender
  if received.bytesIn > 0 then do
    let packet ← ParsePacket received.buf { indeterminate with name := [] }
    let gameState :=
      if packet.packetType = 1 then RegisterNew packet received.client gameState
      else gameState
    pure { gameState with msg_queue := msg_queue_push gameState.msg_queue packet }
  else pure gameState

/-! ## Dispatch: `GameLoop` (lines 219-256) -/

/-- One call `sendto(serverSocket, buf.c_str(), sizeof(Packet), 0, &address, ...)`: the
memory `buf.c_str()` points at, the length argument, and the destination. -/
structure SendCall where
  buf : List Nat
  len : Nat
  dest : sockaddr_in
  deriving DecidableEq, Repr

/-- The broadcast loop (lines 242-250).  `sizeof_Packet` is the constant `sizeof(Packet)`
of the build; `net k` is what the `k`-th `sendto` of this pass returns.  The state is the
calls made so far and the flag `success`. -/
def broadcast (sizeof_Packet : Nat) (net : Nat → Int) (id : Nat) (buf : List Nat) :
    List Client → List SendCall × Bool → List SendCall × Bool
  | [], state => state
  | connectedClient :: rest, (calls, success) =>
    if connectedClient.playerId ≠ id then
      let call : SendCall :=
        { buf := c_str buf, len := sizeof_Packet, dest := connectedClient.address }
      let sendOk := net calls.length
      let success := if sendOk = SOCKET_ERROR then false else success
      broadcast sizeof_Packet net id buf rest (calls ++ [call], success)
    else broadcast sizeof_Packet net id buf rest (calls, success)

/-- What `GameLoop` does with one dequeued packet (lines 228-253): the sender is looked up,
the packet encoded, and the encoding broadcast.  The result is the client found, the
`sendto` calls in order, and the final `success`. -/
def dispatch (sizeof_Packet : Nat) (net : Nat → Int) (gameState : GameState)
    (packet : Packet) : Client × List SendCall × Bool :=
  let id := packet.playerId
  let client := FindClientByPlayerId gameState id
  let buf := encode packet
  let sent := broadcast sizeof_Packet net id buf gameState.players ([], true)
  (client, sent.1, sent.2)

/-- One dequeued packet with what its dispatch did. -/
structure Dispatched where
  packet : Packet
  calls : List SendCall
  success : Bool
  deriving DecidableEq, Repr

/-- The inner `while (!gameState.msg_queue.empty())` of `GameLoop` (lines 224-254): `top()`,
`pop()`, dispatch, until the queue is empty.  `net n k` is the result of the `k`-th `sendto`
for the `n`-th packet dequeued.  Each turn removes one element, so `fuel` equal to the queue
size drains it. -/
def GameLoop_drain (sizeof_Packet : Nat) (net : Nat → Nat → Int) :
    Nat → GameState → List Dispatched → GameState × List Dispatched
  | 0, gameState, log => (gameState, log)
  | fuel + 1, gameState, log =>
    match msg_queue_top gameState.msg_queue with
    | none => (gameState, log)
    | some packet =>
      let gameState := { gameState with msg_queue := msg_queue_pop gameState.msg_queue }
      let sent := dispatch sizeof_Packet (net log.length) gameState packet
      GameLoop_drain sizeof_Packet net fuel gameState
        (log ++ [{ packet := packet, calls := sent.2.1, success := sent.2.2 }])

/-- An empty server state. -/
def GameState.init : GameState :=
  { players := [], datagram := [], stopServer := false, receiving := false, msg_queue := [] }

/-! ## Fixtures of the scenarios -/

/-- The address used for player `n` in the scenarios. -/
def addrOf (n : Nat) : sockaddr_in := { sin_family := 2, sin_port := 9000 + n, sin_addr := n }

/-- A registry entry for player `n` at `addrOf n`. -/
def playerAt (n : Nat) : Client :=
  { address := addrOf n, ip := [], name := [], playerId := n, movementState := 0,
    direction := 0 }

/-- Players 1, 2 and 3 registered, in that order; the queue is empty. -/
def threePlayers : GameState :=
  { players := [playerAt 1, playerAt 2, playerAt 3], datagram := [], stopServer := false,
    receiving := false, msg_queue := [] }

/-- The Movement update of player `id` with `movementState = 1`, `direction = 5` and the
given `timestamp`. -/
def movementOf (id timestamp : Nat) : Packet :=
  { packetType := 0, playerId := id, movementState := 1, direction := 5,
    timestamp := timestamp, name := [] }

/-- Only player 1 is registered; the queue is empty. -/
def onlyPlayer1 : GameState :=
  { players := [playerAt 1], datagram := [], stopServer := false, receiving := false,
    msg_queue := [] }

/-- A Registration packet of player `id` named `name`. -/
def registrationOf (id : Nat) (name : List Nat) : Packet :=
  { packetType := 1, playerId := id, movementState := 0, direction := 0, timestamp := 0,
    name := name }

/-- The entry `RegisterNew` builds from a packet and an address. -/
def clientOf (packet : Packet) (addr : sockaddr_in) : Client :=
  { address := addr, ip := [], name := packet.name, playerId := packet.playerId,
    movementState := packet.movementState, direction := packet.direction }

/-- A packet object with arbitrary earlier contents, standing for uninitialised memory. -/
def stalePacket : Packet :=
  { packetType := 9, playerId := 9, movementState := 9, direction := 9, timestamp := 4242,
    name := [] }

/-- A Registration packet of player `id` named `name` with the given timestamp. -/
def registrationAt (id timestamp : Nat) (name : List Nat) : Packet :=
  { packetType := 1, playerId := id, movementState := 0, direction := 0,
    timestamp := timestamp, name := name }

/-- An update of the given packet type of player `id`, with `movementState = 1`,
`direction = 5`, the given timestamp and the given name. -/
def namedUpdate (packetType id timestamp : Nat) (name : List Nat) : Packet :=
  { packetType := packetType, playerId := id, movementState := 1, direction := 5,
    timestamp := timestamp, name := name }

/-- A valid update: the four header fields are single decimal digits, the timestamp fits 32
bits, and the name is empty unless the update is a Registration (`packetType = 1`). -/
def ValidUpdate (u : Packet) : Prop :=
  u.packetType < 10 ∧ u.playerId < 10 ∧ u.movementState < 10 ∧ u.direction < 10 ∧
    u.timestamp < 2 ^ 32 ∧ (u.packetType ≠ 1 → u.name = [])

instance ValidUpdate.decidable (u : Packet) : Decidable (ValidUpdate u) := by
  unfold ValidUpdate
  infer_instance

/-- The packet object once lines 181-184 have run on a payload whose first four bytes are
`t`, `pid` (a digit), `ms` and `dir`: the four header fields are assigned, `timestamp` and
`name` are still those of the object passed in. -/
def headerOf (t pid ms dir : Nat) (packet : Packet) : Packet :=
  { packet with
    packetType := (t + 256 - 48) % 256
    playerId := pid - 48
    movementState := (ms + 256 - 48) % 256
    direction := (dir + 256 - 48) % 256 }

/-- The timestamp stored at index `i` of the queue's vector (0 outside it). -/
def tsAt (q : List Packet) (i : Nat) : Nat :=
  match q[i]? with
  | some p => p.timestamp
  | none => 0

/-- The heap condition of `std::is_heap` under `PacketTimestampComparator` on the first
`len` positions: no element compares less than its child, that is, the timestamp of a
parent is at most the timestamp of its child. -/
def HeapUpTo (len : Nat) (q : List Packet) : Prop :=
  ∀ i, 0 < i → i < len → tsAt q ((i - 1) / 2) ≤ tsAt q i

/-- The clients the broadcast loop does not skip: those whose `playerId` is not `id`. -/
def eligible (id : Nat) (players : List Client) : List Client :=
  players.filter (fun client => decide (client.playerId ≠ id))

/-- The `sendto` call the loop makes for one eligible client. -/
def callFor (sizeof_Packet : Nat) (buf : List Nat) (client : Client) : SendCall :=
  { buf := c_str buf, len := sizeof_Packet, dest := client.address }

/-- The number of entries of `players` that carry `id`. -/
def entriesWithId (id : Nat) (players : List Client) : Nat :=
  (players.filter (fun client => decide (client.playerId = id))).length

/-! ## Broadcast: lemmas on the loop of lines 242-250 -/

theorem broadcast_calls (sz : Nat) (net : Nat → Int) (id : Nat) (buf : List Nat) :
    ∀ (players : List Client) (calls : List SendCall) (success : Bool),
      (broadcast sz net id buf players (calls, success)).1
        = calls ++ (eligible id players).map (callFor sz buf) := by
  intro players
  induction players with
  | nil => intro calls success; simp [broadcast, eligible]
  | cons client rest ih =>
    intro calls success
    by_cases h : client.playerId = id
    · simp [broadcast, eligible, h, ih]
    · simp [broadcast, eligible, h, ih, callFor]

theorem broadcast_success (sz : Nat) (net : Nat → Int) (id : Nat) (buf : List Nat) :
    ∀ (players : List Client) (calls : List SendCall) (success : Bool),
      ((broadcast sz net id buf players (calls, success)).2 = true ↔
        success = true ∧
          ∀ k, k < (eligible id players).length → net (calls.length + k) ≠ SOCKET_ERROR) := by
  intro players
  induction players with
  | nil => intro calls success; simp [broadcast, eligible]
  | cons client rest ih =>
    intro calls success
    by_cases h : client.playerId = id
    · simp only [broadcast, h, ne_eq, not_true_eq_false, ite_false, ih]
      simp [eligible, h]
    · have he : eligible id (client :: rest) = client :: eligible id rest := by
        simp [eligible, h]
      simp only [broadcast, ne_eq, h, not_false_eq_true, ite_true, ih, he, List.length_cons,
        List.length_append, List.length_singleton]
      constructor
      · rintro ⟨hs, hk⟩
        by_cases hn : net calls.length = SOCKET_ERROR
        · simp [hn] at hs
        · simp only [hn, ite_false] at hs
          refine ⟨hs, ?_⟩
          intro k hk2
          cases k with
          | zero => simpa using hn
          | succ k =>
            have := hk k (by omega)
            simp only [List.length_nil, Nat.zero_add] at this
            have e : calls.length + 1 + k = calls.length + (k + 1) := by omega
            rwa [e] at this
      · rintro ⟨hs, hk⟩
        have hn : net calls.length ≠ SOCKET_ERROR := by simpa using hk 0 (by omega)
        refine ⟨by simp [hn, hs], ?_⟩
        intro k hk2
        have := hk (k + 1) (by omega)
        simp only [List.length_nil, Nat.zero_add]
        have e : calls.length + 1 + k = calls.length + (k + 1) := by omega
        rwa [e]

theorem FindClientByPlayerId_scan_absent (id : Nat) :
    ∀ players : List Client, (∀ c ∈ players, c.playerId ≠ id) →
      FindClientByPlayerId.scan id players = Client.zero := by
  intro players
  induction players with
  | nil => intro _; rfl
  | cons c rest ih =>
    intro h
    have hc : c.playerId ≠ id := h c (List.mem_cons_self _ _)
    simp only [FindClientByPlayerId.scan, hc, ite_false]
    exact ih (fun d hd => h d (List.mem_cons_of_mem _ hd))

/-! ## Wire codec and ingestion: lemmas -/

theorem takeWhile_nonzero_terminated (data tail : List Nat) (h : 0 ∉ data) :
    (data ++ 0 :: tail).takeWhile (fun c => c != 0) = data := by
  induction data with
  | nil => simp
  | cons c rest ih =>
    have hc : c ≠ 0 := fun e => h (by simp [e])
    have hr : 0 ∉ rest := fun m => h (List.mem_cons_of_mem _ m)
    simp [List.takeWhile_cons, hc, ih hr]

theorem string_of_cstr_terminated (data tail : List Nat) (h : 0 ∉ data) :
    string_of_cstr (data ++ 0 :: tail) = .ok data := by
  simp [string_of_cstr, takeWhile_nonzero_terminated data tail h]

theorem decimalDigits_contains (c : Nat) : decimalDigits.contains c = isdigit c := by
  by_cases h : 48 ≤ c ∧ c ≤ 57
  · obtain ⟨h1, h2⟩ := h
    interval_cases c <;> rfl
  · have hd : isdigit c = false := by
      simp only [isdigit, Bool.and_eq_false_iff, decide_eq_false_iff_not]
      omega
    rw [hd]
    simp only [decimalDigits, List.contains_eq_any_beq, List.any_cons, List.any_nil,
      Bool.or_false, Bool.or_eq_false_iff, beq_eq_false_iff_ne, ne_eq]
    omega

theorem find_not_of_from_run (run rest : List Nat) (hrun : ∀ c ∈ run, isdigit c = true) :
    ∀ i, find_not_of_from decimalDigits (run ++ rest) i
      = find_not_of_from decimalDigits rest (i + run.length) := by
  induction run with
  | nil => intro i; simp
  | cons c cs ih =>
    intro i
    have hc : isdigit c = true := hrun c (List.mem_cons_self _ _)
    have hcs : ∀ d ∈ cs, isdigit d = true := fun d hd => hrun d (List.mem_cons_of_mem _ hd)
    rw [List.cons_append, find_not_of_from, decimalDigits_contains, hc, if_pos rfl, ih hcs,
      List.length_cons]
    congr 1
    omega

theorem isspace_of_isdigit (c : Nat) (h : isdigit c = true) : isspace c = false := by
  simp only [isdigit, Bool.and_eq_true, decide_eq_true_eq] at h
  simp only [isspace, Bool.or_eq_false_iff, beq_eq_false_iff_ne, ne_eq, Bool.and_eq_false_iff,
    decide_eq_false_iff_not]
  omega

theorem scanInteger_run (run : List Nat) (hne : run ≠ [])
    (hrun : ∀ c ∈ run, isdigit c = true) :
    scanInteger run = some (false, digitsValue run) := by
  cases run with
  | nil => exact absurd rfl hne
  | cons d rest =>
    have hd : isdigit d = true := hrun d (List.mem_cons_self _ _)
    have hs : isspace d = false := isspace_of_isdigit d hd
    have hge : 48 ≤ d := by
      simp only [isdigit, Bool.and_eq_true, decide_eq_true_eq] at hd
      exact hd.1
    have hdrop : (d :: rest).dropWhile isspace = d :: rest := by
      simp [List.dropWhile_cons, hs]
    have htake : (d :: rest).takeWhile isdigit = d :: rest := by
      rw [List.takeWhile_eq_self_iff]
      exact fun c hc => hrun c hc
    have hsign : (match d :: rest with
        | 45 :: rest => (true, rest)
        | 43 :: rest => (false, rest)
        | _ => (false, d :: rest)) = (false, d :: rest) := by
      split
      · rename_i heq
        simp only [List.cons.injEq] at heq
        omega
      · rename_i heq
        simp only [List.cons.injEq] at heq
        omega
      · rfl
    simp only [scanInteger, hdrop, hsign, htake]
    simp

theorem digitsValue_append_single (ds : List Nat) (d : Nat) :
    digitsValue (ds ++ [d]) = 10 * digitsValue ds + (d - 48) := by
  simp [digitsValue, List.foldl_append]

theorem to_string_aux_spec :
    ∀ fuel n, n < fuel →
      to_string_aux fuel n ≠ [] ∧ (∀ c ∈ to_string_aux fuel n, isdigit c = true) ∧
        digitsValue (to_string_aux fuel n) = n := by
  intro fuel
  induction fuel with
  | zero => intro n h; omega
  | succ fuel ih =>
    intro n h
    by_cases hn : n < 10
    · simp only [to_string_aux, hn, ite_true]
      refine ⟨by simp, ?_, by simp [digitsValue]⟩
      intro c hc
      simp only [List.mem_singleton] at hc
      subst hc
      simp only [isdigit, Bool.and_eq_true, decide_eq_true_eq]
      omega
    · simp only [to_string_aux, hn, ite_false]
      obtain ⟨_, h2, h3⟩ := ih (n / 10) (by omega)
      refine ⟨by simp, ?_, ?_⟩
      · intro c hc
        simp only [List.mem_append, List.mem_singleton] at hc
        rcases hc with hc | hc
        · exact h2 c hc
        · subst hc
          simp only [isdigit, Bool.and_eq_true, decide_eq_true_eq]
          omega
      · rw [digitsValue_append_single, h3]
        omega

theorem to_string_spec (n : Nat) :
    to_string n ≠ [] ∧ (∀ c ∈ to_string n, isdigit c = true) ∧ digitsValue (to_string n) = n :=
  to_string_aux_spec (n + 1) n (Nat.lt_succ_self n)

theorem to_string_digit (n : Nat) (h : n < 10) : to_string n = [48 + n] := by
  simp [to_string, to_string_aux, h]

theorem stoi_digit (c : Nat) (h : isdigit c = true) : stoi [c] = .ok ((c - 48 : Nat) : Int) := by
  have hs := scanInteger_run [c] (by simp) (by simpa using h)
  have hv : digitsValue [c] = c - 48 := by simp [digitsValue]
  simp only [isdigit, Bool.and_eq_true, decide_eq_true_eq] at h
  simp only [stoi, hs, hv, INT_MAX, Bool.false_eq_true, ite_false]
  have : (-2147483647 - 1 ≤ ((c - 48 : Nat) : Int)) ∧ (((c - 48 : Nat) : Int) ≤ 2147483647) := by
    omega
  rw [if_pos this]

theorem stoul_run (run : List Nat) (hne : run ≠ []) (hrun : ∀ c ∈ run, isdigit c = true)
    (hval : digitsValue run ≤ ULONG_MAX) : stoul run = .ok (digitsValue run) := by
  have hs := scanInteger_run run hne hrun
  have : ¬ ULONG_MAX < digitsValue run := by omega
  simp [stoul, hs, this]

theorem isdigit_ne_zero (c : Nat) (h : isdigit c = true) : c ≠ 0 := by
  simp only [isdigit, Bool.and_eq_true, decide_eq_true_eq] at h
  omega

theorem ParsePacket_with_suffix (t pid ms dir : Nat) (run name tail : List Nat) (init : Packet)
    (ht : t ≠ 0) (hpid : isdigit pid = true) (hms : ms ≠ 0) (hdir : dir ≠ 0)
    (hrun : ∀ c ∈ run, isdigit c = true) (hne : run ≠ [])
    (hval : digitsValue run ≤ ULONG_MAX)
    (hname : ∃ c rest, name = c :: rest ∧ isdigit c = false) (hnul : 0 ∉ name) :
    ParsePacket (t :: pid :: ms :: dir :: (run ++ name) ++ 0 :: tail) init
      = .ok { headerOf t pid ms dir init with timestamp := digitsValue run, name := name } := by
  have h0 : 0 ∉ t :: pid :: ms :: dir :: (run ++ name) := by
    simp only [List.mem_cons, List.mem_append, not_or]
    refine ⟨Ne.symm ht, Ne.symm (isdigit_ne_zero pid hpid), Ne.symm hms, Ne.symm hdir, ?_, hnul⟩
    intro hm
    exact isdigit_ne_zero 0 (hrun 0 hm) rfl
  obtain ⟨c, rest, rfl, hc⟩ := hname
  have hfind : find_first_not_of (t :: pid :: ms :: dir :: (run ++ c :: rest)) decimalDigits 4
      = some (4 + run.length) := by
    simp only [find_first_not_of, List.drop_succ_cons, List.drop_zero]
    rw [find_not_of_from_run run (c :: rest) hrun 4, find_not_of_from, decimalDigits_contains,
      hc]
    rfl
  have hmod : digitsValue run % 2 ^ 32 = digitsValue run := by
    apply Nat.mod_eq_of_lt
    simp only [ULONG_MAX] at hval
    omega
  have hid : (((pid - 48 : Nat) : Int) % 65536).toNat = pid - 48 := by
    simp only [isdigit, Bool.and_eq_true, decide_eq_true_eq] at hpid
    omega
  have hsub1 : substr (t :: pid :: ms :: dir :: (run ++ c :: rest)) 1 1 = .ok [pid] := by
    simp [substr]
  have hsub4 : substr (t :: pid :: ms :: dir :: (run ++ c :: rest)) 4 (4 + run.length - 4)
      = .ok run := by
    simp [substr]
  have hsubn : substr_from (t :: pid :: ms :: dir :: (run ++ c :: rest)) (4 + run.length)
      = .ok (c :: rest) := by
    have e : List.drop (4 + run.length) (t :: pid :: ms :: dir :: (run ++ c :: rest))
        = c :: rest := by
      rw [Nat.add_comm, ← List.drop_drop]
      simp
    simp only [substr_from, e]
    simp
    omega
  simp only [ParsePacket, string_of_cstr_terminated _ tail h0, bind, Except.bind, hfind, hsub1,
    hsub4, hsubn, stoi_digit pid hpid, stoul_run run hne hrun hval, hmod, hid]
  simp [string_at, headerOf, pure, Except.pure]

theorem ParsePacket_without_suffix (t pid ms dir : Nat) (run tail : List Nat) (init : Packet)
    (ht : t ≠ 0) (hpid : isdigit pid = true) (hms : ms ≠ 0) (hdir : dir ≠ 0)
    (hrun : ∀ c ∈ run, isdigit c = true) :
    ParsePacket (t :: pid :: ms :: dir :: run ++ 0 :: tail) init
      = .ok (headerOf t pid ms dir init) := by
  have h0 : 0 ∉ t :: pid :: ms :: dir :: run := by
    simp only [List.mem_cons, not_or]
    refine ⟨Ne.symm ht, Ne.symm (isdigit_ne_zero pid hpid), Ne.symm hms, Ne.symm hdir, ?_⟩
    intro hm
    exact isdigit_ne_zero 0 (hrun 0 hm) rfl
  have hfind : find_first_not_of (t :: pid :: ms :: dir :: run) decimalDigits 4 = none := by
    simp only [find_first_not_of, List.drop_succ_cons, List.drop_zero]
    have := find_not_of_from_run run [] hrun 4
    rw [List.append_nil] at this
    rw [this]
    rfl
  have hid : (((pid - 48 : Nat) : Int) % 65536).toNat = pid - 48 := by
    simp only [isdigit, Bool.and_eq_true, decide_eq_true_eq] at hpid
    omega
  have hsub1 : substr (t :: pid :: ms :: dir :: run) 1 1 = .ok [pid] := by
    simp [substr]
  simp only [ParsePacket, string_of_cstr_terminated _ tail h0, bind, Except.bind, hfind, hsub1,
    stoi_digit pid hpid, hid]
  simp [string_at, headerOf, pure, Except.pure]

theorem recvfrom_short (payload : List Nat) (sender : sockaddr_in)
    (hlen : payload.length < 64) :
    recvfrom payload sender
      = { bytesIn := payload.length
          buf := payload ++ 0 :: List.replicate (63 - payload.length) 0
          client := sender } := by
  have h1 : payload.length ≤ 64 := by omega
  have h2 : 64 - payload.length = (63 - payload.length) + 1 := by omega
  simp only [recvfrom, h1, ite_true, h2, List.replicate_succ]

theorem ReceiveMessages_iteration_of_parse (gameState : GameState) (payload : List Nat)
    (sender : sockaddr_in) (indeterminate packet : Packet)
    (hpos : 0 < payload.length) (hlen : payload.length ≤ 64)
    (hparse : ParsePacket (recvfrom payload sender).buf { indeterminate with name := [] }
      = .ok packet) :
    ReceiveMessages_iteration gameState payload sender indeterminate
      = .ok { (if packet.packetType = 1 then RegisterNew packet sender gameState
               else gameState) with
              msg_queue := msg_queue_push
                (if packet.packetType = 1 then RegisterNew packet sender gameState
                 else gameState).msg_queue packet } := by
  have hb : (recvfrom payload sender).bytesIn > 0 := by
    simp only [recvfrom, hlen, ite_true]
    exact_mod_cast hpos
  have hc : (recvfrom payload sender).client = sender := by
    simp only [recvfrom, hlen, ite_true]
  simp only [ReceiveMessages_iteration, hb, ite_true, hparse, bind, Except.bind, hc]
  rfl

/-! ## The delivery queue: lemmas on the heap loops and on the drain loop -/

theorem tsAt_set (q : List Packet) (j : Nat) (x : Packet) (i : Nat) :
    tsAt (q.set j x) i = if i = j ∧ j < q.length then x.timestamp else tsAt q i := by
  unfold tsAt
  rw [List.getElem?_set]
  by_cases h : j = i
  · subst h
    by_cases h2 : j < q.length
    · simp [h2]
    · simp [h2]
      have : q[j]? = none := by simp; omega
      simp [this]
  · have h' : ¬ i = j := fun e => h e.symm
    simp [h, h']

theorem tsAt_getD (q : List Packet) (i : Nat) (d : Packet) (h : i < q.length) :
    (q.getD i d).timestamp = tsAt q i := by
  unfold tsAt
  simp [List.getD_eq_getElem?_getD, List.getElem?_eq_getElem h]

theorem count_set (a : Packet) (d : Packet) :
    ∀ (l : List Packet) (i : Nat) (x : Packet), i < l.length →
      List.count a (l.set i x) + (if l.getD i d = a then 1 else 0)
        = List.count a l + (if x = a then 1 else 0) := by
  intro l
  induction l with
  | nil => intro i x h; simp at h
  | cons y ys ih =>
    intro i x h
    cases i with
    | zero =>
      simp only [List.set_cons_zero, List.count_cons, List.getD_cons_zero, beq_iff_eq]
      omega
    | succ i =>
      have := ih i x (by simpa using h)
      simp only [List.set_cons_succ, List.count_cons, List.getD_cons_succ]
      omega

theorem getD_set_ne (l : List Packet) (i j : Nat) (x d : Packet) (h : i ≠ j) :
    (l.set i x).getD j d = l.getD j d := by
  simp [List.getD_eq_getElem?_getD, List.getElem?_set_ne h]

/-- Moving the entry at `p` into the hole `h` and the value into `p` permutes the vector
that has the value in the hole. -/
theorem set_set_perm (q : List Packet) (h p : Nat) (v : Packet) (hh : h < q.length)
    (hp : p < q.length) (hne : p ≠ h) :
    ((q.set h (q.getD p v)).set p v).Perm (q.set h v) := by
  rw [List.perm_iff_count]
  intro a
  have e1 := count_set a v (q.set h (q.getD p v)) p v (by simpa using hp)
  have e2 := count_set a v q h (q.getD p v) hh
  have e3 := count_set a v q h v hh
  rw [getD_set_ne q h p _ _ (Ne.symm hne)] at e1
  generalize (if q.getD p v = a then 1 else 0) = x1 at *
  generalize (if q.getD h v = a then 1 else 0) = x2 at *
  generalize (if v = a then 1 else 0) = x3 at *
  omega

/-- The sift-up loop, started at a hole `h` of a vector that is a heap on its first `len`
positions once `value` is put in the hole, except perhaps between the hole and its parent:
the result is a heap on those positions, a permutation of the vector with `value` in the
hole, and the positions from `len` on are untouched. -/
theorem push_heap_loop_spec (value : Packet) (len : Nat) :
    ∀ (fuel : Nat) (q : List Packet) (h : Nat), h ≤ fuel → h < len → len ≤ q.length →
      (∀ i, 0 < i → i < len → i ≠ h → (i - 1) / 2 ≠ h → tsAt q ((i - 1) / 2) ≤ tsAt q i) →
      (∀ i, 0 < i → i < len → (i - 1) / 2 = h → value.timestamp ≤ tsAt q i) →
      (∀ k, 0 < k → k < len → (k - 1) / 2 = h → 0 < h → tsAt q ((h - 1) / 2) ≤ tsAt q k) →
      HeapUpTo len (push_heap_loop PacketTimestampComparator 0 value fuel q h) ∧
      (push_heap_loop PacketTimestampComparator 0 value fuel q h).Perm (q.set h value) ∧
      (∀ j, len ≤ j → (push_heap_loop PacketTimestampComparator 0 value fuel q h)[j]? = q[j]?) := by
  have hfinal : ∀ (q : List Packet) (h : Nat), h < len → len ≤ q.length →
      (∀ i, 0 < i → i < len → i ≠ h → (i - 1) / 2 ≠ h → tsAt q ((i - 1) / 2) ≤ tsAt q i) →
      (∀ i, 0 < i → i < len → (i - 1) / 2 = h → value.timestamp ≤ tsAt q i) →
      (0 < h → tsAt q ((h - 1) / 2) ≤ value.timestamp) →
      HeapUpTo len (q.set h value) ∧ (q.set h value).Perm (q.set h value) ∧
        (∀ j, len ≤ j → (q.set h value)[j]? = q[j]?) := by
    intro q h hlt hlen ha ha2 hp
    refine ⟨?_, List.Perm.refl _, ?_⟩
    · intro i hi0 hilen
      have hts : ∀ j, tsAt (q.set h value) j
          = if j = h then value.timestamp else tsAt q j := by
        intro j
        rw [tsAt_set]
        by_cases e : j = h
        · rw [if_pos ⟨e, by omega⟩, if_pos e]
        · rw [if_neg (fun x => e x.1), if_neg e]
      rw [hts, hts]
      by_cases e1 : i = h
      · subst e1
        have hne : ¬ (i - 1) / 2 = i := by omega
        rw [if_neg hne, if_pos rfl]
        exact hp hi0
      · by_cases e2 : (i - 1) / 2 = h
        · have := ha2 i hi0 hilen e2
          rw [if_pos e2, if_neg e1]
          exact this
        · have := ha i hi0 hilen e1 e2
          rw [if_neg e2, if_neg e1]
          exact this
    · intro j hj
      exact List.getElem?_set_ne (by omega)
  intro fuel
  induction fuel with
  | zero =>
    intro q h hfuel hlt hlen ha ha2 _
    have h0 : h = 0 := by omega
    subst h0
    simp only [push_heap_loop]
    exact hfinal q 0 hlt hlen ha ha2 (fun h => absurd h (by omega))
  | succ fuel ih =>
    intro q h hfuel hlt hlen ha ha2 hb
    by_cases hc : h > 0 ∧
        PacketTimestampComparator (q.getD ((h - 1) / 2) value) value = true
    · obtain ⟨hpos, hcmp⟩ := hc
      have hplt : (h - 1) / 2 < h := by omega
      have hgt : value.timestamp < tsAt q ((h - 1) / 2) := by
        rw [← tsAt_getD q ((h - 1) / 2) value (by omega)]
        simpa [PacketTimestampComparator] using hcmp
      have hts : ∀ j, tsAt (q.set h (q.getD ((h - 1) / 2) value)) j
          = if j = h then tsAt q ((h - 1) / 2) else tsAt q j := by
        intro j
        rw [tsAt_set, tsAt_getD q ((h - 1) / 2) value (by omega)]
        by_cases e : j = h
        · rw [if_pos ⟨e, by omega⟩, if_pos e]
        · rw [if_neg (fun x => e x.1), if_neg e]
      have hrec := ih (q.set h (q.getD ((h - 1) / 2) value)) ((h - 1) / 2) (by omega)
        (by omega) (by simpa using hlen)
        (by
          intro i hi0 hilen e1 e2
          rw [hts, hts]
          have hih : i ≠ h := by
            intro e; subst e; exact e2 rfl
          rw [if_neg hih]
          by_cases e3 : (i - 1) / 2 = h
          · rw [if_pos e3]
            exact hb i hi0 hilen e3 hpos
          · rw [if_neg e3]
            exact ha i hi0 hilen hih e3)
        (by
          intro i hi0 hilen e1
          rw [hts]
          by_cases e2 : i = h
          · rw [if_pos e2]; omega
          · rw [if_neg e2]
            have := ha i hi0 hilen e2 (by omega)
            rw [e1] at this
            omega)
        (by
          intro k hk0 hklen e1 hp0
          rw [hts, hts]
          have hg : ¬ ((h - 1) / 2 - 1) / 2 = h := by omega
          rw [if_neg hg]
          have hpp := ha ((h - 1) / 2) hp0 (by omega) (by omega) (by omega)
          by_cases e2 : k = h
          · rw [if_pos e2]; exact hpp
          · rw [if_neg e2]
            have := ha k hk0 hklen e2 (by omega)
            rw [e1] at this
            omega)
      obtain ⟨r1, r2, r3⟩ := hrec
      have hstep : push_heap_loop PacketTimestampComparator 0 value (fuel + 1) q h
          = push_heap_loop PacketTimestampComparator 0 value fuel
              (q.set h (q.getD ((h - 1) / 2) value)) ((h - 1) / 2) := by
        simp only [push_heap_loop, hpos, hcmp, and_self, ite_true]
      rw [hstep]
      refine ⟨r1, r2.trans (set_set_perm q h ((h - 1) / 2) value (by omega) (by omega)
        (by omega)), ?_⟩
      intro j hj
      rw [r3 j hj]
      exact List.getElem?_set_ne (by omega)
    · have hstep : push_heap_loop PacketTimestampComparator 0 value (fuel + 1) q h
          = q.set h value := by
        simp only [push_heap_loop, hc, ite_false]
      rw [hstep]
      refine hfinal q h hlt hlen ha ha2 ?_
      intro hpos
      have hn : ¬ PacketTimestampComparator (q.getD ((h - 1) / 2) value) value = true :=
        fun e => hc ⟨hpos, e⟩
      rw [← tsAt_getD q ((h - 1) / 2) value (by omega)]
      simpa [PacketTimestampComparator] using hn

/-- The descent loop of `__adjust_heap` on a heap of `len` positions: the vector stays a
heap, the hole ends on a position with no second child, the vector with `value` in the hole
is a permutation of the initial one with `value` in the initial hole, and the positions from
`len` on are untouched. -/
theorem adjust_heap_descend_spec (value : Packet) (len : Nat) :
    ∀ (fuel : Nat) (q : List Packet) (h : Nat), (len - 1) / 2 ≤ h + fuel → h < len →
      len ≤ q.length → HeapUpTo len q →
      HeapUpTo len (adjust_heap_descend PacketTimestampComparator len value fuel q h h).1 ∧
      (adjust_heap_descend PacketTimestampComparator len value fuel q h h).2.1
        = (adjust_heap_descend PacketTimestampComparator len value fuel q h h).2.2 ∧
      (adjust_heap_descend PacketTimestampComparator len value fuel q h h).2.1 < len ∧
      (len - 1) / 2 ≤ (adjust_heap_descend PacketTimestampComparator len value fuel q h h).2.1 ∧
      h ≤ (adjust_heap_descend PacketTimestampComparator len value fuel q h h).2.1 ∧
      ((adjust_heap_descend PacketTimestampComparator len value fuel q h h).1.set
          (adjust_heap_descend PacketTimestampComparator len value fuel q h h).2.1 value).Perm
        (q.set h value) ∧
      (adjust_heap_descend PacketTimestampComparator len value fuel q h h).1.length
        = q.length ∧
      (∀ j, len ≤ j →
        (adjust_heap_descend PacketTimestampComparator len value fuel q h h).1[j]? = q[j]?) := by
  intro fuel
  induction fuel with
  | zero =>
    intro q h hfuel hlt hlen hheap
    have hstep : adjust_heap_descend PacketTimestampComparator len value 0 q h h
        = (q, h, h) := rfl
    rw [hstep]
    dsimp only
    exact ⟨hheap, rfl, hlt, by omega, Nat.le_refl _, List.Perm.refl _, rfl, fun _ _ => rfl⟩
  | succ fuel ih =>
    intro q h hfuel hlt hlen hheap
    by_cases hc : h < (len - 1) / 2
    · have hstep : adjust_heap_descend PacketTimestampComparator len value (fuel + 1) q h h
          = adjust_heap_descend PacketTimestampComparator len value fuel
              (q.set h (q.getD
                (if PacketTimestampComparator (q.getD (2 * (h + 1)) value)
                    (q.getD (2 * (h + 1) - 1) value) = true
                 then 2 * (h + 1) - 1 else 2 * (h + 1)) value))
              (if PacketTimestampComparator (q.getD (2 * (h + 1)) value)
                    (q.getD (2 * (h + 1) - 1) value) = true
                 then 2 * (h + 1) - 1 else 2 * (h + 1))
              (if PacketTimestampComparator (q.getD (2 * (h + 1)) value)
                    (q.getD (2 * (h + 1) - 1) value) = true
                 then 2 * (h + 1) - 1 else 2 * (h + 1)) := by
        simp only [adjust_heap_descend, hc, ite_true]
      rw [hstep]
      generalize hpick : (if PacketTimestampComparator (q.getD (2 * (h + 1)) value)
                    (q.getD (2 * (h + 1) - 1) value) = true
                 then 2 * (h + 1) - 1 else 2 * (h + 1)) = pick
      have hr : 2 * (h + 1) < len := by omega
      have hchoice : (pick = 2 * h + 1 ∨ pick = 2 * h + 2) ∧
          tsAt q pick ≤ tsAt q (2 * h + 1) ∧ tsAt q pick ≤ tsAt q (2 * h + 2) := by
        by_cases hcmp : PacketTimestampComparator (q.getD (2 * (h + 1)) value)
            (q.getD (2 * (h + 1) - 1) value) = true
        · rw [if_pos hcmp] at hpick
          have hlt2 : tsAt q (2 * (h + 1) - 1) < tsAt q (2 * (h + 1)) := by
            rw [← tsAt_getD q (2 * (h + 1)) value (by omega),
              ← tsAt_getD q (2 * (h + 1) - 1) value (by omega)]
            simpa [PacketTimestampComparator] using hcmp
          have e1 : 2 * (h + 1) - 1 = 2 * h + 1 := by omega
          have e2 : 2 * (h + 1) = 2 * h + 2 := by omega
          rw [e1] at hpick hlt2
          rw [e2] at hlt2
          subst hpick
          exact ⟨Or.inl rfl, Nat.le_refl _, by omega⟩
        · rw [if_neg hcmp] at hpick
          have hle2 : tsAt q (2 * (h + 1)) ≤ tsAt q (2 * (h + 1) - 1) := by
            rw [← tsAt_getD q (2 * (h + 1)) value (by omega),
              ← tsAt_getD q (2 * (h + 1) - 1) value (by omega)]
            simpa [PacketTimestampComparator] using hcmp
          have e1 : 2 * (h + 1) - 1 = 2 * h + 1 := by omega
          have e2 : 2 * (h + 1) = 2 * h + 2 := by omega
          rw [e1] at hle2
          rw [e2] at hpick hle2
          subst hpick
          exact ⟨Or.inr rfl, by omega, Nat.le_refl _⟩
      obtain ⟨hp, hmin1, hmin2⟩ := hchoice
      have hplen : pick < len := by omega
      have hts : ∀ j, tsAt (q.set h (q.getD pick value)) j
          = if j = h then tsAt q pick else tsAt q j := by
        intro j
        rw [tsAt_set, tsAt_getD q pick value (by omega)]
        by_cases e : j = h
        · rw [if_pos ⟨e, by omega⟩, if_pos e]
        · rw [if_neg (fun x => e x.1), if_neg e]
      have hheap2 : HeapUpTo len (q.set h (q.getD pick value)) := by
        intro i hi0 hilen
        rw [hts, hts]
        by_cases e1 : i = h
        · subst e1
          have hne : ¬ (i - 1) / 2 = i := by omega
          rw [if_neg hne, if_pos rfl]
          have a1 := hheap i hi0 hilen
          have a2 := hheap pick (by omega) hplen
          have e : (pick - 1) / 2 = i := by omega
          rw [e] at a2
          omega
        · rw [if_neg e1]
          by_cases e2 : (i - 1) / 2 = h
          · rw [if_pos e2]
            have : i = 2 * h + 1 ∨ i = 2 * h + 2 := by omega
            rcases this with e | e
            · rw [e]; exact hmin1
            · rw [e]; exact hmin2
          · rw [if_neg e2]
            exact hheap i hi0 hilen
      obtain ⟨r1, r2, r3, r4, r5, r6, r7, r8⟩ :=
        ih (q.set h (q.getD pick value)) pick (by omega) hplen (by simpa using hlen) hheap2
      refine ⟨r1, r2, r3, r4, by omega, ?_, by simpa using r7, ?_⟩
      · exact r6.trans (set_set_perm q h pick value (by omega) (by omega) (by omega))
      · intro j hj
        rw [r8 j hj]
        exact List.getElem?_set_ne (by omega)
    · have hstep : adjust_heap_descend PacketTimestampComparator len value (fuel + 1) q h h
          = (q, h, h) := by
        simp only [adjust_heap_descend, hc, ite_false]
      rw [hstep]
      dsimp only
      exact ⟨hheap, rfl, hlt, by omega, Nat.le_refl _, List.Perm.refl _, rfl, fun _ _ => rfl⟩

/-- The sift-up loop started with the hole on a position without children. -/
theorem push_heap_loop_from_leaf (value : Packet) (len : Nat) (q : List Packet) (h : Nat)
    (hlt : h < len) (hleaf : len ≤ 2 * h + 1) (hlen : len ≤ q.length)
    (hheap : HeapUpTo len q) :
    HeapUpTo len (push_heap_loop PacketTimestampComparator 0 value h q h) ∧
    (push_heap_loop PacketTimestampComparator 0 value h q h).Perm (q.set h value) ∧
    (∀ j, len ≤ j → (push_heap_loop PacketTimestampComparator 0 value h q h)[j]? = q[j]?) :=
  push_heap_loop_spec value len h q h (Nat.le_refl _) hlt hlen
    (fun i hi0 hilen _ _ => hheap i hi0 hilen)
    (fun i hi0 hilen e => absurd e (by omega))
    (fun k hk0 hklen e _ => absurd e (by omega))

/-- `__adjust_heap` from the root of a heap of `len` positions: the result is a heap on
those positions and a permutation of the vector with `value` in place of the root; the
positions from `len` on are untouched. -/
theorem adjust_heap_spec (value : Packet) (len : Nat) (q : List Packet) (hlen1 : 1 ≤ len)
    (hlen : len ≤ q.length) (hheap : HeapUpTo len q) :
    HeapUpTo len (adjust_heap PacketTimestampComparator q 0 len value) ∧
    (adjust_heap PacketTimestampComparator q 0 len value).Perm (q.set 0 value) ∧
    (∀ j, len ≤ j → (adjust_heap PacketTimestampComparator q 0 len value)[j]? = q[j]?) := by
  obtain ⟨d1, d2, d3, d4, _, d6, d7, d8⟩ :=
    adjust_heap_descend_spec value len len q 0 (by omega) (by omega) hlen hheap
  unfold adjust_heap
  generalize adjust_heap_descend PacketTimestampComparator len value len q 0 0 = d at *
  obtain ⟨q1, h1, s1⟩ := d
  dsimp only at d1 d2 d3 d4 d6 d7 d8 ⊢
  subst d2
  by_cases hc : len % 2 = 0 ∧ h1 = (len - 2) / 2
  · rw [if_pos hc]
    obtain ⟨hev, hh1⟩ := hc
    have ehole : 2 * (h1 + 1) - 1 = len - 1 := by omega
    rw [ehole]
    have hts : ∀ j, tsAt (q1.set h1 (q1.getD (len - 1) value)) j
        = if j = h1 then tsAt q1 (len - 1) else tsAt q1 j := by
      intro j
      rw [tsAt_set, tsAt_getD q1 (len - 1) value (by omega)]
      by_cases e : j = h1
      · rw [if_pos ⟨e, by omega⟩, if_pos e]
      · rw [if_neg (fun x => e x.1), if_neg e]
    have hheap2 : HeapUpTo len (q1.set h1 (q1.getD (len - 1) value)) := by
      intro i hi0 hilen
      rw [hts, hts]
      by_cases e1 : i = h1
      · subst e1
        have hne : ¬ (i - 1) / 2 = i := by omega
        rw [if_neg hne, if_pos rfl]
        have a1 := d1 i hi0 hilen
        have a2 := d1 (len - 1) (by omega) (by omega)
        have e : (len - 1 - 1) / 2 = i := by omega
        rw [e] at a2
        omega
      · rw [if_neg e1]
        by_cases e2 : (i - 1) / 2 = h1
        · rw [if_pos e2]
          have : i = len - 1 := by omega
          rw [this]
        · rw [if_neg e2]
          exact d1 i hi0 hilen
    obtain ⟨r1, r2, r3⟩ := push_heap_loop_from_leaf value len
      (q1.set h1 (q1.getD (len - 1) value)) (len - 1) (by omega) (by omega)
      (by simpa using by omega) hheap2
    refine ⟨r1, ?_, ?_⟩
    · exact (r2.trans (set_set_perm q1 h1 (len - 1) value (by omega) (by omega)
        (by omega))).trans d6
    · intro j hj
      rw [r3 j hj, List.getElem?_set_ne (by omega)]
      exact d8 j hj
  · rw [if_neg hc]
    obtain ⟨r1, r2, r3⟩ := push_heap_loop_from_leaf value len q1 h1 d3 (by omega)
      (by omega) d1
    refine ⟨r1, r2.trans d6, ?_⟩
    intro j hj
    rw [r3 j hj]
    exact d8 j hj

theorem tsAt_append_left (q l : List Packet) (i : Nat) (h : i < q.length) :
    tsAt (q ++ l) i = tsAt q i := by
  unfold tsAt
  rw [List.getElem?_append_left h]

theorem tsAt_dropLast (q : List Packet) (i : Nat) (h : i + 1 < q.length) :
    tsAt q.dropLast i = tsAt q i := by
  unfold tsAt
  rw [List.dropLast_eq_take, List.getElem?_take_of_lt (by omega)]

/-- `msg_queue.push` keeps the vector a heap and adds exactly the pushed packet. -/
theorem msg_queue_push_spec (q : List Packet) (x : Packet) (hq : HeapUpTo q.length q) :
    HeapUpTo (msg_queue_push q x).length (msg_queue_push q x) ∧
    (msg_queue_push q x).Perm (q ++ [x]) := by
  have hlast : (q ++ [x]).getLast? = some x := by simp
  by_cases h2 : 2 ≤ (q ++ [x]).length
  · have hstep : msg_queue_push q x
        = push_heap_loop PacketTimestampComparator 0 x q.length (q ++ [x]) q.length := by
      have h2' : 2 ≤ q.length + 1 := by simpa using h2
      simp only [msg_queue_push, push_heap, hlast, h2', ite_true, List.length_append,
        List.length_singleton, Nat.add_sub_cancel]
    obtain ⟨r1, r2, _⟩ := push_heap_loop_spec x (q.length + 1) q.length (q ++ [x]) q.length
      (Nat.le_refl _) (by omega) (by simp)
      (by
        intro i hi0 hilen e1 _
        rw [tsAt_append_left q [x] _ (by omega), tsAt_append_left q [x] _ (by omega)]
        exact hq i hi0 (by omega))
      (fun i hi0 hilen e => absurd e (by omega))
      (fun k hk0 hklen e _ => absurd e (by omega))
    have hset : (q ++ [x]).set q.length x = q ++ [x] := by
      simp
    rw [hset] at r2
    rw [hstep]
    refine ⟨?_, r2⟩
    rw [r2.length_eq]
    simpa using r1
  · have hq0 : q = [] := by
      cases q with
      | nil => rfl
      | cons a l => simp at h2
    subst hq0
    have hstep : msg_queue_push [] x = [x] := by
      simp [msg_queue_push, push_heap]
    rw [hstep]
    refine ⟨?_, List.Perm.refl _⟩
    intro i hi0 hilen
    simp at hilen
    omega

/-- `msg_queue.pop` keeps the vector a heap and removes exactly the front packet. -/
theorem msg_queue_pop_spec (top : Packet) (rest : List Packet)
    (hq : HeapUpTo (top :: rest).length (top :: rest)) :
    HeapUpTo (msg_queue_pop (top :: rest)).length (msg_queue_pop (top :: rest)) ∧
    (top :: msg_queue_pop (top :: rest)).Perm (top :: rest) := by
  cases hrest : rest.getLast? with
  | none =>
    have : rest = [] := by simpa using hrest
    subst this
    have hstep : msg_queue_pop [top] = [] := by
      simp [msg_queue_pop, pop_heap]
    rw [hstep]
    refine ⟨?_, List.Perm.refl _⟩
    intro i hi0 hilen
    simp at hilen
  | some value =>
    have hne : rest ≠ [] := by
      intro e; subst e; simp at hrest
    have hlen2 : 2 ≤ (top :: rest).length := by
      cases rest with
      | nil => exact absurd rfl hne
      | cons a l => simp
    have hlast : (top :: rest).getLast? = some value := by
      rw [List.getLast?_cons, hrest]
      rfl
    have hn : (top :: rest).length - 1 = rest.length := by simp
    have hstep : pop_heap PacketTimestampComparator (top :: rest)
        = adjust_heap PacketTimestampComparator ((top :: rest).set rest.length top) 0
            rest.length value := by
      simp only [pop_heap, List.head?_cons, hlast, hlen2, ite_true, hn]
    have hrl : 1 ≤ rest.length := by
      simp only [List.length_cons] at hlen2
      omega
    have hheap1 : HeapUpTo rest.length ((top :: rest).set rest.length top) := by
      intro i hi0 hilen
      rw [tsAt_set, tsAt_set]
      rw [if_neg (by omega), if_neg (by omega)]
      exact hq i hi0 (by simp; omega)
    obtain ⟨r1, r2, r3⟩ := adjust_heap_spec value rest.length
      ((top :: rest).set rest.length top) hrl (by simp) hheap1
    rw [← hstep] at r1 r2 r3
    have hvalue : (top :: rest).getD rest.length value = value := by
      rw [List.getD_eq_getElem?_getD]
      have : (top :: rest)[rest.length]? = some value := by
        rw [← hlast, List.getLast?_eq_getElem?]
        simp
      rw [this]; rfl
    have hperm : (pop_heap PacketTimestampComparator (top :: rest)).Perm (top :: rest) := by
      refine r2.trans ?_
      have hs := set_set_perm (top :: rest) rest.length 0 value (by simp) (by simp)
        (by omega)
      have e0 : (top :: rest).getD 0 value = top := rfl
      rw [e0] at hs
      refine hs.trans ?_
      have : (top :: rest).set rest.length value = top :: rest := by
        have hin : rest.length < (top :: rest).length := by simp
        have hget : (top :: rest)[rest.length]? = some value := by
          rw [← hlast, List.getLast?_eq_getElem?]
          simp
        apply List.ext_getElem?
        intro j
        rw [List.getElem?_set]
        by_cases e : rest.length = j
        · rw [if_pos e, if_pos hin, ← e, hget]
        · rw [if_neg e]
      rw [this]
    have hplen : (pop_heap PacketTimestampComparator (top :: rest)).length
        = rest.length + 1 := by
      rw [hperm.length_eq]; simp
    have hback : (pop_heap PacketTimestampComparator (top :: rest)).getLast? = some top := by
      rw [List.getLast?_eq_getElem?, hplen, Nat.add_sub_cancel, r3 rest.length (Nat.le_refl _)]
      rw [List.getElem?_set_self (by simp)]
    have hsplit : pop_heap PacketTimestampComparator (top :: rest)
        = msg_queue_pop (top :: rest) ++ [top] := by
      have := List.dropLast_append_getLast? top hback
      rw [msg_queue_pop]
      exact this.symm
    have hpoplen : (msg_queue_pop (top :: rest)).length = rest.length := by
      simp [msg_queue_pop, hplen]
    refine ⟨?_, ?_⟩
    · intro i hi0 hilen
      rw [hpoplen] at hilen
      rw [msg_queue_pop, tsAt_dropLast _ _ (by omega), tsAt_dropLast _ _ (by omega)]
      exact r1 i hi0 hilen
    · have : (msg_queue_pop (top :: rest) ++ [top]).Perm (top :: rest) := by
        rw [← hsplit]; exact hperm
      exact (List.perm_append_singleton top _).symm.trans this

/-- In a heap the front holds the least timestamp. -/
theorem heap_front_least (len : Nat) (q : List Packet) (hq : HeapUpTo len q) :
    ∀ i, i < len → tsAt q 0 ≤ tsAt q i := by
  intro i
  induction i using Nat.strong_induction_on with
  | _ i ih =>
    intro hi
    by_cases h0 : i = 0
    · subst h0; exact Nat.le_refl _
    · have h1 := hq i (by omega) hi
      have h2 := ih ((i - 1) / 2) (by omega) (by omega)
      omega

theorem heap_front_le_mem (top : Packet) (rest : List Packet)
    (hq : HeapUpTo (top :: rest).length (top :: rest)) :
    ∀ x ∈ top :: rest, top.timestamp ≤ x.timestamp := by
  intro x hx
  obtain ⟨i, hi, hget⟩ := List.getElem_of_mem hx
  have h := heap_front_least _ _ hq i hi
  have e0 : tsAt (top :: rest) 0 = top.timestamp := by simp [tsAt]
  have ei : tsAt (top :: rest) i = x.timestamp := by
    unfold tsAt
    rw [List.getElem?_eq_getElem hi, hget]
  rw [e0, ei] at h
  exact h

/-- Pushing a list of packets one after the other on a heap gives a heap holding exactly
the old and the new packets. -/
theorem foldl_msg_queue_push_spec :
    ∀ (packets q : List Packet), HeapUpTo q.length q →
      HeapUpTo (packets.foldl msg_queue_push q).length (packets.foldl msg_queue_push q) ∧
      (packets.foldl msg_queue_push q).Perm (q ++ packets) := by
  intro packets
  induction packets with
  | nil => intro q hq; simpa using hq
  | cons x xs ih =>
    intro q hq
    obtain ⟨h1, h2⟩ := msg_queue_push_spec q x hq
    obtain ⟨h3, h4⟩ := ih (msg_queue_push q x) h1
    refine ⟨h3, ?_⟩
    rw [List.foldl_cons]
    refine h4.trans ?_
    have : q ++ x :: xs = (q ++ [x]) ++ xs := by simp
    rw [this]
    exact h2.append_right xs

/-- The drain loop on a heap, with fuel at least the queue size: the queue ends empty, the
registry is untouched, and the packets dispatched are those of the queue, each once, in
non-decreasing timestamp order. -/
theorem GameLoop_drain_spec (sz : Nat) (net : Nat → Nat → Int) :
    ∀ (fuel : Nat) (gameState : GameState) (log : List Dispatched),
      HeapUpTo gameState.msg_queue.length gameState.msg_queue →
      gameState.msg_queue.length ≤ fuel →
      ∃ extra : List Dispatched,
        (GameLoop_drain sz net fuel gameState log).2 = log ++ extra ∧
        (GameLoop_drain sz net fuel gameState log).1.msg_queue = [] ∧
        (GameLoop_drain sz net fuel gameState log).1.players = gameState.players ∧
        (extra.map (fun d => d.packet)).Perm gameState.msg_queue ∧
        (extra.map (fun d => d.packet.timestamp)).Sorted (fun a b => a ≤ b) := by
  intro fuel
  induction fuel with
  | zero =>
    intro gameState log _ hlen
    have hnil : gameState.msg_queue = [] := List.length_eq_zero.mp (by omega)
    refine ⟨[], by simp [GameLoop_drain], by simpa [GameLoop_drain] using hnil,
      by simp [GameLoop_drain], by simp [hnil], by simp⟩
  | succ fuel ih =>
    intro gameState log hheap hlen
    cases hq : gameState.msg_queue with
    | nil =>
      refine ⟨[], by simp [GameLoop_drain, msg_queue_top, hq],
        by simp [GameLoop_drain, msg_queue_top, hq], by simp [GameLoop_drain, msg_queue_top, hq],
        by simp, by simp⟩
    | cons top rest =>
      rw [hq] at hheap hlen
      obtain ⟨p1, p2⟩ := msg_queue_pop_spec top rest hheap
      have hpoplen : (msg_queue_pop (top :: rest)).length = rest.length := by
        have := p2.length_eq
        simpa using this
      have hstep : ∃ d0 : Dispatched, d0.packet = top ∧
          GameLoop_drain sz net (fuel + 1) gameState log
            = GameLoop_drain sz net fuel
                { gameState with msg_queue := msg_queue_pop (top :: rest) } (log ++ [d0]) :=
        ⟨⟨top,
            (dispatch sz (net log.length)
              { gameState with msg_queue := msg_queue_pop (top :: rest) } top).2.1,
            (dispatch sz (net log.length)
              { gameState with msg_queue := msg_queue_pop (top :: rest) } top).2.2⟩,
          rfl, by simp only [GameLoop_drain, msg_queue_top, hq, List.head?_cons]⟩
      obtain ⟨d0, hd0, hstep⟩ := hstep
      obtain ⟨extra, e1, e2, e3, e4, e5⟩ :=
        ih { gameState with msg_queue := msg_queue_pop (top :: rest) } (log ++ [d0])
          p1 (by simp only [hpoplen]; simp only [List.length_cons] at hlen; omega)
      rw [hstep]
      refine ⟨d0 :: extra, by rw [e1]; simp, e2, e3, ?_, ?_⟩
      · simp only [List.map_cons, hd0]
        exact (List.Perm.cons top e4).trans p2
      · simp only [List.map_cons, List.sorted_cons, hd0]
        refine ⟨?_, e5⟩
        intro b hb
        simp only [List.mem_map] at hb
        obtain ⟨d, hd, rfl⟩ := hb
        have hmem : d.packet ∈ msg_queue_pop (top :: rest) :=
          e4.subset (List.mem_map_of_mem (fun d => d.packet) hd)
        have hmem2 : d.packet ∈ top :: rest := p2.subset (List.mem_cons_of_mem _ hmem)
        exact heap_front_le_mem top rest hheap d.packet hmem2

/-! ## The claims -/

/-- C1 (as stated, refuted): the Registration update of player 2 with timestamp 5 and name
`7up` is valid and is encoded as `120057up`; decoding that gives timestamp 57 and name `up`,
because nothing in the layout separates the timestamp from the name. -/
theorem C1_digit_led_name_counterexample :
    ValidUpdate (registrationAt 2 5 (bytes "7up")) ∧
    encode (registrationAt 2 5 (bytes "7up")) = bytes "120057up" ∧
    ParsePacket (c_str (encode (registrationAt 2 5 (bytes "7up")))) stalePacket
      = .ok (registrationAt 2 57 (bytes "up")) ∧
    ParsePacket (c_str (encode (registrationAt 2 5 (bytes "7up")))) stalePacket
      ≠ .ok (registrationAt 2 5 (bytes "7up")) := by
  refine ⟨by decide, by decide, rfl, ?_⟩
  intro h
  have e : ParsePacket (c_str (encode (registrationAt 2 5 (bytes "7up")))) stalePacket
      = .ok (registrationAt 2 57 (bytes "up")) := rfl
  rw [e] at h
  injection h with h
  exact absurd (congrArg Packet.timestamp h) (by decide)

/-- C1 (amended): for every update whose `packetType`, `playerId`, `movementState` and
`direction` are single decimal digits (whatever the packet type), whose timestamp fits 32
bits, and whose name is not empty, does not start with a decimal digit and holds no NUL
byte, `ParsePacket` applied to the NUL-terminated encoding that `GameLoop` builds returns a
packet equal to the update in every field, whatever the packet object held before the
call. -/
theorem C1_roundtrip_of_named_update (u init : Packet)
    (htype : u.packetType < 10) (hid : u.playerId < 10) (hstate : u.movementState < 10)
    (hdir : u.direction < 10) (htime : u.timestamp < 2 ^ 32)
    (hname : ∃ c rest, u.name = c :: rest ∧ isdigit c = false) (hnul : 0 ∉ u.name) :
    ParsePacket (c_str (encode u)) init = .ok u := by
  obtain ⟨hne, hdig, hv⟩ := to_string_spec u.timestamp
  have henc : c_str (encode u)
      = (48 + u.packetType) :: (48 + u.playerId) :: (48 + u.movementState) ::
          (48 + u.direction) :: (to_string u.timestamp ++ u.name) ++ 0 :: [] := by
    simp [c_str, encode, to_string_digit, htype, hid, hstate, hdir]
  have hval : digitsValue (to_string u.timestamp) ≤ ULONG_MAX := by
    rw [hv]
    simp only [ULONG_MAX]
    omega
  rw [henc, ParsePacket_with_suffix _ _ _ _ _ _ [] init (by omega)
    (by simp only [isdigit, Bool.and_eq_true, decide_eq_true_eq]; omega) (by omega) (by omega)
    hdig hne hval hname hnul]
  have e1 : (48 + u.packetType + 256 - 48) % 256 = u.packetType := by omega
  have e3 : (48 + u.movementState + 256 - 48) % 256 = u.movementState := by omega
  have e4 : (48 + u.direction + 256 - 48) % 256 = u.direction := by omega
  have e2 : 48 + u.playerId - 48 = u.playerId := by omega
  simp only [headerOf, e1, e2, e3, e4, hv]

/-- Witness of `C1_roundtrip_of_named_update`: the update of type 0 of player 3 with
`movementState = 1`, `direction = 5`, timestamp 99 and name `Bob`, which is not a
Registration. -/
theorem C1_roundtrip_of_named_update_witness :
    (namedUpdate 0 3 99 (bytes "Bob")).packetType < 10 ∧
    (namedUpdate 0 3 99 (bytes "Bob")).playerId < 10 ∧
    (namedUpdate 0 3 99 (bytes "Bob")).movementState < 10 ∧
    (namedUpdate 0 3 99 (bytes "Bob")).direction < 10 ∧
    (namedUpdate 0 3 99 (bytes "Bob")).timestamp < 2 ^ 32 ∧
    (∃ c rest, (namedUpdate 0 3 99 (bytes "Bob")).name = c :: rest ∧ isdigit c = false) ∧
    0 ∉ (namedUpdate 0 3 99 (bytes "Bob")).name ∧
    encode (namedUpdate 0 3 99 (bytes "Bob")) = bytes "031599Bob" ∧
    ParsePacket (c_str (encode (namedUpdate 0 3 99 (bytes "Bob")))) stalePacket
      = .ok (namedUpdate 0 3 99 (bytes "Bob")) :=
  ⟨by decide, by decide, by decide, by decide, by decide,
    ⟨66, [111, 98], by decide, by decide⟩, by decide, by decide,
    C1_roundtrip_of_named_update (namedUpdate 0 3 99 (bytes "Bob")) stalePacket (by decide)
      (by decide) (by decide) (by decide) (by decide) ⟨66, [111, 98], by decide, by decide⟩
      (by decide)⟩

/-- C2 (as stated, refuted): the payload `x115100A` has a non-digit in the type field, yet
`ParsePacket` reports nothing and returns a packet of type `'x' - '0' = 72`, and the
ingestion step pushes that packet on `msg_queue`, which was empty before. -/
theorem C2_non_digit_type_counterexample :
    isdigit 120 = false ∧
    ParsePacket (recvfrom (bytes "x115100A") (addrOf 1)).buf { stalePacket with name := [] }
      = .ok { packetType := 72, playerId := 1, movementState := 1, direction := 5,
              timestamp := 100, name := bytes "A" } ∧
    ReceiveMessages_iteration threePlayers (bytes "x115100A") (addrOf 1) stalePacket
      = .ok { threePlayers with
              msg_queue := [{ packetType := 72, playerId := 1, movementState := 1,
                              direction := 5, timestamp := 100, name := bytes "A" }] } ∧
    threePlayers.msg_queue = [] :=
  ⟨rfl, rfl, rfl, rfl⟩

/-- C2 (amended): `ParsePacket` has no malformed-message outcome and `ReceiveMessages` no
guard.  For every payload shorter than 64 bytes whose type byte is neither a decimal digit
nor NUL and that continues with a player-id digit, two non-NUL bytes, a run of digits and
then either nothing or a name (after a non-empty run that fits `unsigned long`) that starts
with a non-digit and holds no NUL: decoding returns a packet without error, its
`packetType` is the byte minus `'0'` modulo 256, which is never 1, and the ingestion step
leaves `players` as it was and pushes that packet on `msg_queue`. -/
theorem C2_non_digit_type_is_decoded_and_queued (gameState : GameState) (t pid ms dir : Nat)
    (run name : List Nat) (sender : sockaddr_in) (indeterminate : Packet)
    (htype : isdigit t = false) (ht0 : t ≠ 0) (ht : t < 256)
    (hpid : isdigit pid = true) (hms : ms ≠ 0) (hdir : dir ≠ 0)
    (hrun : ∀ c ∈ run, isdigit c = true)
    (hsuffix : name = [] ∨ (run ≠ [] ∧ digitsValue run ≤ ULONG_MAX ∧
        (∃ c rest, name = c :: rest ∧ isdigit c = false) ∧ 0 ∉ name))
    (hlen : (t :: pid :: ms :: dir :: (run ++ name)).length < 64) :
    ∃ packet,
      ParsePacket (recvfrom (t :: pid :: ms :: dir :: (run ++ name)) sender).buf
          { indeterminate with name := [] } = .ok packet ∧
      packet.packetType = (t + 256 - 48) % 256 ∧ packet.packetType ≠ 1 ∧
      ReceiveMessages_iteration gameState (t :: pid :: ms :: dir :: (run ++ name)) sender
          indeterminate
        = .ok { gameState with msg_queue := msg_queue_push gameState.msg_queue packet } := by
  have hne1 : (t + 256 - 48) % 256 ≠ 1 := by
    simp only [isdigit, Bool.and_eq_false_iff, decide_eq_false_iff_not] at htype
    omega
  have hparse : ∃ packet,
      ParsePacket (recvfrom (t :: pid :: ms :: dir :: (run ++ name)) sender).buf
          { indeterminate with name := [] } = .ok packet ∧
      packet.packetType = (t + 256 - 48) % 256 := by
    rw [recvfrom_short _ sender hlen]
    rcases hsuffix with hnil | ⟨hne, hval, hname, hnul⟩
    · subst hnil
      rw [List.append_nil]
      exact ⟨_, ParsePacket_without_suffix t pid ms dir run _ _ ht0 hpid hms hdir hrun, rfl⟩
    · exact ⟨_, ParsePacket_with_suffix t pid ms dir run name _ _ ht0 hpid hms hdir hrun hne
        hval hname hnul, rfl⟩
  obtain ⟨packet, hp, htypeEq⟩ := hparse
  have hp1 : packet.packetType ≠ 1 := by rw [htypeEq]; exact hne1
  refine ⟨packet, hp, htypeEq, hp1, ?_⟩
  rw [ReceiveMessages_iteration_of_parse gameState _ sender indeterminate packet
    (by simp) (by omega) hp]
  simp only [hp1, ite_false]

/-- Witness of `C2_non_digit_type_is_decoded_and_queued`: the payload `x115100A` arriving
while players 1, 2 and 3 are registered. -/
theorem C2_non_digit_type_is_decoded_and_queued_witness :
    isdigit 120 = false ∧ isdigit 49 = true ∧
    (∃ packet,
      ParsePacket (recvfrom (120 :: 49 :: 49 :: 53 :: ([49, 48, 48] ++ [65])) (addrOf 1)).buf
          { stalePacket with name := [] } = .ok packet ∧
      packet.packetType = (120 + 256 - 48) % 256 ∧ packet.packetType ≠ 1 ∧
      ReceiveMessages_iteration threePlayers (120 :: 49 :: 49 :: 53 :: ([49, 48, 48] ++ [65]))
          (addrOf 1) stalePacket
        = .ok { threePlayers with
                msg_queue := msg_queue_push threePlayers.msg_queue packet }) :=
  ⟨by decide, by decide,
    C2_non_digit_type_is_decoded_and_queued threePlayers 120 49 49 53 [49, 48, 48] [65]
      (addrOf 1) stalePacket (by decide) (by decide) (by decide) (by decide) (by decide)
      (by decide) (by decide)
      (Or.inr ⟨by decide, by decide, ⟨65, [], rfl, by decide⟩, by decide⟩) (by decide)⟩

/-- C3: for every list of packets pushed on the empty `msg_queue` one after the other, in
whatever order, the drain loop of `GameLoop` run with fuel at least the number of packets
empties the queue and dispatches exactly the pushed packets, each once, in non-decreasing
timestamp order; this holds in particular when the timestamps are pairwise distinct.  For
updates with the timestamps 5, 3, 8, 1, 9, 2, 7 pushed in that order, the drain dispatches
them in the order 1, 2, 3, 5, 7, 8, 9. -/
theorem C3_drain_in_timestamp_order (sz : Nat) (net : Nat → Nat → Int)
    (gameState : GameState) (packets : List Packet) (spare : Nat) :
    (GameLoop_drain sz net (packets.length + spare)
        { gameState with msg_queue := packets.foldl msg_queue_push [] } []).1.msg_queue = [] ∧
    ((GameLoop_drain sz net (packets.length + spare)
        { gameState with msg_queue := packets.foldl msg_queue_push [] } []).2.map
      (fun d => d.packet)).Perm packets ∧
    ((GameLoop_drain sz net (packets.length + spare)
        { gameState with msg_queue := packets.foldl msg_queue_push [] } []).2.map
      (fun d => d.packet.timestamp)).Sorted (fun a b => a ≤ b) ∧
    (GameLoop_drain 48 (fun _ _ => 0) 7
        { threePlayers with
          msg_queue := ([5, 3, 8, 1, 9, 2, 7].map (movementOf 1)).foldl msg_queue_push [] }
        []).2.map (fun d => d.packet.timestamp) = [1, 2, 3, 5, 7, 8, 9] := by
  obtain ⟨h1, h2⟩ := foldl_msg_queue_push_spec packets []
    (fun i _ hi => absurd hi (by simp))
  have hlen : (packets.foldl msg_queue_push []).length = packets.length := by
    simpa using h2.length_eq
  obtain ⟨extra, e1, e2, _, e4, e5⟩ := GameLoop_drain_spec sz net (packets.length + spare)
    { gameState with msg_queue := packets.foldl msg_queue_push [] } [] h1
    (by simp only [hlen]; omega)
  rw [e1]
  refine ⟨e2, ?_, ?_, by decide⟩
  · simpa using e4.trans h2
  · simpa using e5

/-- C4 (as stated, refuted): from the empty registry, two registrations of player 1 from
two different addresses leave two entries with `playerId = 1`, so the entry is not unique
and the `playerId` values of `players` are not pairwise distinct. -/
theorem C4_duplicate_registration_counterexample :
    addrOf 1 ≠ addrOf 2 ∧
    entriesWithId 1
        (RegisterNew (registrationOf 1 (bytes "Ann")) (addrOf 2)
          (RegisterNew (registrationOf 1 (bytes "Ann")) (addrOf 1) GameState.init)).players = 2 ∧
    ¬ ((RegisterNew (registrationOf 1 (bytes "Ann")) (addrOf 2)
          (RegisterNew (registrationOf 1 (bytes "Ann")) (addrOf 1) GameState.init)).players.map
        (fun client => client.playerId)).Nodup := by
  decide

/-- C4 (amended): for every registry state and every two Registration packets with the same
`playerId`, after `RegisterNew` has processed both, `players` is the earlier registry
followed by one entry per registration, in arrival order, so its last entry carries that
`playerId` and the later address; nothing is replaced or removed, and the number of entries
with that `playerId` has grown by two. -/
theorem C4_RegisterNew_appends (gameState : GameState) (first second : Packet)
    (addr1 addr2 : sockaddr_in) (hid : first.playerId = second.playerId) :
    (RegisterNew second addr2 (RegisterNew first addr1 gameState)).players
        = gameState.players ++ [clientOf first addr1, clientOf second addr2] ∧
    (RegisterNew second addr2 (RegisterNew first addr1 gameState)).players.getLast?
        = some (clientOf second addr2) ∧
    (clientOf second addr2).playerId = first.playerId ∧
    (clientOf second addr2).address = addr2 ∧
    entriesWithId first.playerId
        (RegisterNew second addr2 (RegisterNew first addr1 gameState)).players
      = entriesWithId first.playerId gameState.players + 2 := by
  refine ⟨by simp [RegisterNew, clientOf], by simp [RegisterNew, clientOf], hid.symm, rfl, ?_⟩
  simp [RegisterNew, entriesWithId, List.filter_append, List.filter_cons, hid]

/-- Witness of `C4_RegisterNew_appends`: with players 1, 2 and 3 registered, player 1
registers again from `addrOf 4` and then from `addrOf 5`. -/
theorem C4_RegisterNew_appends_witness :
    (registrationOf 1 (bytes "Ann")).playerId = (registrationOf 1 (bytes "Anna")).playerId ∧
    (RegisterNew (registrationOf 1 (bytes "Anna")) (addrOf 5)
        (RegisterNew (registrationOf 1 (bytes "Ann")) (addrOf 4) threePlayers)).players
      = threePlayers.players ++ [clientOf (registrationOf 1 (bytes "Ann")) (addrOf 4),
          clientOf (registrationOf 1 (bytes "Anna")) (addrOf 5)] ∧
    entriesWithId 1
        (RegisterNew (registrationOf 1 (bytes "Anna")) (addrOf 5)
          (RegisterNew (registrationOf 1 (bytes "Ann")) (addrOf 4) threePlayers)).players
      = entriesWithId 1 threePlayers.players + 2 :=
  ⟨rfl,
    (C4_RegisterNew_appends threePlayers (registrationOf 1 (bytes "Ann"))
      (registrationOf 1 (bytes "Anna")) (addrOf 4) (addrOf 5) rfl).1,
    (C4_RegisterNew_appends threePlayers (registrationOf 1 (bytes "Ann"))
      (registrationOf 1 (bytes "Anna")) (addrOf 4) (addrOf 5) rfl).2.2.2.2⟩

/-- C5: for every dequeued packet and every registry, the `sendto` calls of the broadcast
step are, in registry order, one call per entry of `players` whose `playerId` differs from
the packet's, addressed to that entry, and no call is made for an entry with the packet's
`playerId`.  With players 1, 2 and 3 registered and the update of player 1, the calls go to
player 2 and player 3, one each, and none to player 1. -/
theorem C5_broadcast_skips_only_the_sender (sz : Nat) (net : Nat → Int)
    (gameState : GameState) (packet : Packet) :
    ((dispatch sz net gameState packet).2.1.map (fun call => call.dest)
        = (gameState.players.filter
            (fun client => decide (client.playerId ≠ packet.playerId))).map
              (fun client => client.address)) ∧
    (dispatch sz net gameState packet).2.1.length
        = gameState.players.length - entriesWithId packet.playerId gameState.players ∧
    (dispatch sz net threePlayers (movementOf 1 100)).2.1.map (fun call => call.dest)
        = [addrOf 2, addrOf 3] := by
  have hcalls : (dispatch sz net gameState packet).2.1
      = (eligible packet.playerId gameState.players).map (callFor sz (encode packet)) := by
    simp [dispatch, broadcast_calls]
  refine ⟨?_, ?_, ?_⟩
  · rw [hcalls]
    simp [eligible, callFor, List.map_map, Function.comp_def]
  · rw [hcalls]
    simp only [List.length_map, eligible, entriesWithId]
    have := List.length_eq_length_filter_add (l := gameState.players)
      (fun client => decide (client.playerId = packet.playerId))
    have e : (fun client : Client => decide (client.playerId ≠ packet.playerId))
        = (fun client => !(decide (client.playerId = packet.playerId))) := by
      funext client; simp
    rw [e]; omega
  · simp [dispatch, broadcast_calls, eligible, threePlayers, playerAt, movementOf, callFor]

/-- C6 (the code at the failing input): on the Movement payload `0115100`, `ParsePacket`
sets `packetType`, `playerId`, `movementState` and `direction` and returns at line 189
before the assignment of line 191: `timestamp` keeps whatever the packet object held before
the call instead of becoming 100.  On a packet that held 4242 it is still 4242. -/
theorem C6_movement_payload_leaves_timestamp_unset (init : Packet) :
    ParsePacket (c_str (bytes "0115100")) init
      = .ok { packetType := 0, playerId := 1, movementState := 1, direction := 5,
              timestamp := init.timestamp, name := init.name } ∧
    ParsePacket (c_str (bytes "0115100")) stalePacket
      = .ok { packetType := 0, playerId := 1, movementState := 1, direction := 5,
              timestamp := 4242, name := [] } :=
  ⟨rfl, rfl⟩

/-- C7: for every dequeued packet, registry and pattern of `sendto` results, the calls the
broadcast step makes are the calls it makes when every `sendto` succeeds; the flag `success`
ends true exactly when no call returned `SOCKET_ERROR`.  With players 1, 2 and 3 registered
and the update of player 1, when the first `sendto` (to player 2) fails, player 3 is still
sent to and `success` ends false. -/
theorem C7_send_failure_does_not_stop_fan_out (sz : Nat) (net : Nat → Int)
    (gameState : GameState) (packet : Packet) :
    (dispatch sz net gameState packet).2.1
        = (dispatch sz (fun _ => 0) gameState packet).2.1 ∧
    ((dispatch sz net gameState packet).2.2 = true ↔
      ∀ k, k < (dispatch sz net gameState packet).2.1.length → net k ≠ SOCKET_ERROR) ∧
    (dispatch sz (fun k => if k = 0 then SOCKET_ERROR else 0) threePlayers
        (movementOf 1 100)).2.1.map (fun call => call.dest) = [addrOf 2, addrOf 3] ∧
    (dispatch sz (fun k => if k = 0 then SOCKET_ERROR else 0) threePlayers
        (movementOf 1 100)).2.2 = false := by
  refine ⟨by simp [dispatch, broadcast_calls], ?_, ?_, ?_⟩
  · have := broadcast_success sz net packet.playerId (encode packet) gameState.players []
      true
    simpa [dispatch, broadcast_calls] using this
  · simp [dispatch, broadcast_calls, eligible, threePlayers, playerAt, movementOf, callFor]
  · simp [dispatch, broadcast, threePlayers, playerAt, movementOf]

/-- C8: when no entry of `players` carries the packet's `playerId`, the lookup of the
sender returns the value-initialised `Client()` and the broadcast step makes one `sendto`
call per entry of `players`, in order, leaving nobody out. -/
theorem C8_unknown_sender_broadcasts_to_all (sz : Nat) (net : Nat → Int)
    (gameState : GameState) (packet : Packet)
    (hunknown : ∀ client ∈ gameState.players, client.playerId ≠ packet.playerId) :
    (dispatch sz net gameState packet).1 = Client.zero ∧
    (dispatch sz net gameState packet).2.1
        = gameState.players.map (callFor sz (encode packet)) ∧
    (dispatch sz net gameState packet).2.1.map (fun call => call.dest)
        = gameState.players.map (fun client => client.address) := by
  have hall : eligible packet.playerId gameState.players = gameState.players := by
    simp only [eligible, List.filter_eq_self]
    intro client hc
    simpa using hunknown client hc
  have hcalls : (dispatch sz net gameState packet).2.1
      = gameState.players.map (callFor sz (encode packet)) := by
    simp [dispatch, broadcast_calls, hall]
  refine ⟨FindClientByPlayerId_scan_absent _ _ hunknown, hcalls, ?_⟩
  rw [hcalls]
  simp [callFor, List.map_map, Function.comp_def]

/-- Witness of `C8_unknown_sender_broadcasts_to_all`: a Movement update of player 7 with
players 1, 2 and 3 registered. -/
theorem C8_unknown_sender_broadcasts_to_all_witness :
    (∀ client ∈ threePlayers.players, client.playerId ≠ (movementOf 7 100).playerId) ∧
    (dispatch 48 (fun _ => 0) threePlayers (movementOf 7 100)).1 = Client.zero ∧
    (dispatch 48 (fun _ => 0) threePlayers (movementOf 7 100)).2.1.map (fun call => call.dest)
      = [addrOf 1, addrOf 2, addrOf 3] :=
  ⟨by decide,
    (C8_unknown_sender_broadcasts_to_all 48 (fun _ => 0) threePlayers (movementOf 7 100)
      (by decide)).1,
    (C8_unknown_sender_broadcasts_to_all 48 (fun _ => 0) threePlayers (movementOf 7 100)
      (by decide)).2.2⟩

/-- C9: when every entry of `players` carries the packet's `playerId` (the registry is empty
or holds only the sender), the broadcast step makes no `sendto` call and ends with
`success` true. -/
theorem C9_no_other_player_no_send (sz : Nat) (net : Nat → Int)
    (gameState : GameState) (packet : Packet)
    (honly : ∀ client ∈ gameState.players, client.playerId = packet.playerId) :
    (dispatch sz net gameState packet).2.1 = [] ∧
    (dispatch sz net gameState packet).2.2 = true := by
  have hnone : eligible packet.playerId gameState.players = [] := by
    simp only [eligible, List.filter_eq_nil_iff]
    intro client hc
    simpa using honly client hc
  have h1 : (dispatch sz net gameState packet).2.1 = [] := by
    simp [dispatch, broadcast_calls, hnone]
  refine ⟨h1, ?_⟩
  have := broadcast_success sz net packet.playerId (encode packet) gameState.players [] true
  simp only [hnone, List.length_nil, Nat.not_lt_zero, false_implies, implies_true, and_true,
    true_and] at this
  simpa [dispatch] using this

/-- Witness of `C9_no_other_player_no_send`: only player 1 is registered and player 1
sends an update, every `sendto` being set to fail. -/
theorem C9_no_other_player_no_send_witness :
    (∀ client ∈ onlyPlayer1.players, client.playerId = (movementOf 1 100).playerId) ∧
    (dispatch 48 (fun _ => SOCKET_ERROR) onlyPlayer1 (movementOf 1 100)).2.1 = [] ∧
    (dispatch 48 (fun _ => SOCKET_ERROR) onlyPlayer1 (movementOf 1 100)).2.2 = true :=
  ⟨by decide,
    C9_no_other_player_no_send 48 (fun _ => SOCKET_ERROR) onlyPlayer1 (movementOf 1 100)
      (by decide)⟩

/-- C10 (the code at the failing input): with players 1, 2 and 3 registered, the update of
player 1 with timestamp 100 is encoded in 7 bytes and the one with timestamp 1000 in 8, yet
for both every `sendto` call is given the length `sizeof(Packet)`, whatever that constant
is: the length passed is not the length of the encoding. -/
theorem C10_send_length_is_sizeof_Packet (sz : Nat) (net : Nat → Int) :
    encode (movementOf 1 100) = bytes "0115100" ∧
    (dispatch sz net threePlayers (movementOf 1 100)).2.1
        = [{ buf := c_str (bytes "0115100"), len := sz, dest := addrOf 2 },
           { buf := c_str (bytes "0115100"), len := sz, dest := addrOf 3 }] ∧
    (encode (movementOf 1 1000)).length = 8 ∧
    (dispatch sz net threePlayers (movementOf 1 1000)).2.1.map (fun call => call.len)
        = [sz, sz] ∧
    ¬ (sz = (encode (movementOf 1 100)).length ∧ sz = (encode (movementOf 1 1000)).length) := by
  have e1 : encode (movementOf 1 100) = bytes "0115100" := by decide
  have e2 : (encode (movementOf 1 1000)).length = 8 := by decide
  refine ⟨e1, ?_, e2, ?_, ?_⟩
  · simp only [dispatch, broadcast_calls, e1]
    simp [eligible, threePlayers, playerAt, movementOf, callFor]
  · simp only [dispatch, broadcast_calls]
    simp [eligible, threePlayers, playerAt, movementOf, callFor]
  · rw [e2, e1]
    have : (bytes "0115100").length = 7 := by decide
    omega

end UdpGameServer
